import Mathlib

/-!
Verification development for a bulk-synchronous parallel web crawler.

The definitions below are a shallow embedding of the crawler's source:
the domain matcher and URL validation (`src/utils/url.ts`), the ratio
calculator (`src/output/tsv.ts`), the fetch gate (`src/utils/http.ts`),
the worker (`src/crawler/worker.ts`), and the coordinator
(`src/crawler/parallel-crawler.ts`).  The platform URL parser (the
WHATWG `URL` class used via `new URL(url, base)`) is an external
collaborator; it is modelled by a simplified executable parser that
keeps the behaviour the source relies on: extracting `protocol`,
`hostname` and `pathname`, failing on strings without a resolvable
scheme/host, and parsing the base URL first (a malformed base makes
the constructor throw even for an absolute input).  Page fetching and
HTML link extraction are external collaborators and are passed in as
function parameters (`net`, `extract`).
-/

namespace WebCrawler

/-- Model of a parsed WHATWG URL: the pieces the crawler reads.
`protocol` keeps the trailing colon, as `URL.protocol` does. -/
structure Url where
  protocol : String
  hostname : String
  pathname : String
deriving DecidableEq

/-- Scheme tail: characters of a scheme after its first letter, up to the colon. -/
def schemeChars : List Char → Option (List Char × List Char)
  | [] => none
  | c :: rest =>
    if c = ':' then some ([], rest)
    else if c.isAlphanum || c = '+' || c = '-' || c = '.' then
      match schemeChars rest with
      | some (s, r) => some (c :: s, r)
      | none => none
    else none

/-- Split a candidate URL into scheme and remainder; `none` when there is no
syntactically valid scheme followed by a colon. -/
def splitScheme (cs : List Char) : Option (List Char × List Char) :=
  match cs with
  | [] => none
  | c :: rest =>
    if c.isAlpha then
      match schemeChars rest with
      | some (s, r) => some (c :: s, r)
      | none => none
    else none

/-- Longest prefix not satisfying `p`, together with the remainder. -/
def takeUntil (p : Char → Bool) : List Char → List Char × List Char
  | [] => ([], [])
  | c :: rest =>
    if p c then ([], c :: rest)
    else
      let out := takeUntil p rest
      (c :: out.1, out.2)

/-- Drop the userinfo part (everything through the last `@`) of an authority. -/
def dropUserinfo (auth : List Char) : List Char :=
  if auth.contains '@' then ((auth.reverse.takeWhile (fun c => c ≠ '@')).reverse)
  else auth

/-- Drop a trailing port from a host-port component. -/
def stripPort (hostport : List Char) : List Char :=
  (takeUntil (fun c => c = ':') hostport).1

/-- Model of `new URL(s)` (no base): parse an absolute URL, lowercasing
scheme and host; fails on a missing scheme or an empty host after `//`. -/
def parseAbs (s : String) : Option Url :=
  match splitScheme s.toList with
  | none => none
  | some (scheme, rest) =>
    let proto := String.mk (scheme.map Char.toLower) ++ ":"
    match rest with
    | '/' :: '/' :: rest2 =>
      let out := takeUntil (fun c => c = '/' || c = '?' || c = '#') rest2
      let host := stripPort (dropUserinfo out.1)
      if host.isEmpty then none
      else
        let path := (takeUntil (fun c => c = '?' || c = '#') out.2).1
        some ⟨proto, String.mk (host.map Char.toLower),
              if path.isEmpty then "/" else String.mk path⟩
    | _ =>
      let path := (takeUntil (fun c => c = '?' || c = '#') rest).1
      some ⟨proto, "", String.mk path⟩

/-- Model of resolving a relative reference against an already parsed base. -/
def parseRel (cs : List Char) (b : Url) : Option Url :=
  match cs with
  | '/' :: '/' :: rest => parseAbs (b.protocol ++ "//" ++ String.mk rest)
  | '/' :: rest =>
    some ⟨b.protocol, b.hostname,
          String.mk ('/' :: (takeUntil (fun c => c = '?' || c = '#') rest).1)⟩
  | [] => some b
  | rest =>
    some ⟨b.protocol, b.hostname,
          "/" ++ String.mk ((takeUntil (fun c => c = '?' || c = '#') rest).1)⟩

/-- Model of `new URL(url, base)`: the base is parsed first and a malformed
base is a failure even for an absolute `url`; a `url` that carries its own
scheme is parsed absolutely, otherwise it is resolved against the base. -/
def resolveUrlAgainst (url base : String) : Option Url :=
  match parseAbs base with
  | none => none
  | some b =>
    match splitScheme url.toList with
    | some _ =>
      match parseAbs url with
      | some u => some u
      | none => none
    | none => parseRel url.toList b

/-- Embedding of `isSameDomain` from `src/utils/url.ts`: resolve both URLs
against `baseUrl`, compare `protocol + "//" + hostname` for exact equality,
and return `false` if either construction fails (the `catch` branch). -/
def isSameDomain (url1 url2 baseUrl : String) : Bool :=
  match resolveUrlAgainst url1 baseUrl, resolveUrlAgainst url2 baseUrl with
  | some d1, some d2 =>
    decide (d1.protocol ++ "//" ++ d1.hostname = d2.protocol ++ "//" ++ d2.hostname)
  | _, _ => false

/-- Embedding of `isValidUrl` from `src/utils/url.ts`: `new URL(url)` with no
base succeeds. -/
def isValidUrl (url : String) : Bool :=
  (parseAbs url).isSome

/-- Embedding of `calculateRatio` from `src/output/tsv.ts`: `0` for an empty
link list, otherwise the number of links accepted by `isSameDomainFn`
against the page URL, divided by the number of links. -/
def calculateRatio (links : List String) (pageUrl : String)
    (isSameDomainFn : String → String → Bool) : ℚ :=
  if links.length = 0 then 0
  else ((links.filter (fun link => isSameDomainFn link pageUrl)).length : ℚ) /
    (links.length : ℚ)

/-- Embedding of `CRAWLABLE_EXTENSIONS` from `src/utils/http.ts`. -/
def CRAWLABLE_EXTENSIONS : List String :=
  ["html", "htm", "xhtml", "shtml", "php", "asp", "aspx", "jsp", "cgi"]

/-- A character matched by the `[a-z0-9]` class of the extension regex. -/
def isExtensionChar (c : Char) : Bool :=
  ('a' ≤ c && c ≤ 'z') || ('0' ≤ c && c ≤ '9')

/-- The extension matched by the regex `\.([a-z0-9]+)$` on the lowercased
pathname: the maximal non-empty run of `[a-z0-9]` at the end, provided it is
preceded by a dot. -/
def extensionOf (pathname : String) : Option String :=
  let cs := (pathname.toList.map Char.toLower).reverse
  let ext := cs.takeWhile isExtensionChar
  if ext.isEmpty then none
  else
    match cs.drop ext.length with
    | '.' :: _ => some (String.mk ext.reverse)
    | _ => none

/-- Embedding of `isLikelyFileUrl` from `src/utils/http.ts`: a URL whose
pathname ends in an extension is skipped unless the extension is in the
crawlable list or consists only of digits; unparsable URLs are not treated
as file URLs. -/
def isLikelyFileUrl (url : String) : Bool :=
  match parseAbs url with
  | none => false
  | some u =>
    match extensionOf u.pathname with
    | none => false
    | some ext =>
      if ext.toList.all (fun c => c.isDigit) then false
      else !(decide (ext ∈ CRAWLABLE_EXTENSIONS))

/-- Embedding of `fetchPage` from `src/utils/http.ts`.  The network (HTTP
status, content type, body, timeouts) is the oracle `net`: `net url = none`
models any transport-level failure, non-2xx status or non-HTML content type.
The gates before the request are the file-URL check and URL validation. -/
def fetchPage (net : String → Option String) (url : String) : Option String :=
  if isLikelyFileUrl url then none
  else if !(isValidUrl url) then none
  else net url

/-- A frontier entry `{url, depth}` (`src/types/index.ts`). -/
structure Entry where
  url : String
  depth : Nat
deriving DecidableEq

/-- A crawl result `{url, depth, ratio}` (`src/types/index.ts`). -/
structure PageResult where
  url : String
  depth : Nat
  ratio : ℚ
deriving DecidableEq

/-- A `WorkerTask` handed to one worker thread (`src/types/index.ts`). -/
structure WorkerTask where
  id : String
  urls : List Entry
  rootUrl : String
  maxDepth : Nat
  timeout : Nat
deriving DecidableEq

/-- A `WorkerResult` posted back by one worker thread (`src/types/index.ts`). -/
structure WorkerResult where
  taskId : String
  results : List PageResult
  newUrls : List Entry
  error : Option String
deriving DecidableEq

/-- `Math.ceil(a / b)` on natural numbers, for a positive divisor. -/
def jsCeilDiv (a b : Nat) : Nat :=
  (a + b - 1) / b

/-- The task built for worker `i` in `distributeUrls`
(`src/crawler/parallel-crawler.ts`): the contiguous slice
`urls.slice(i*upw, min((i+1)*upw, len))`. -/
def mkWorkerTask (urls : List Entry) (rootUrl : String) (maxDepth timeout upw i : Nat) :
    WorkerTask :=
  ⟨"worker-" ++ toString i, (urls.drop (i * upw)).take upw, rootUrl, maxDepth, timeout⟩

/-- The loop of `distributeUrls`: for `i` from the given index while
`i < maxWorkers` and `i * urlsPerWorker < urls.length`, push the slice for
worker `i` when it is non-empty.  The bound `i < maxWorkers` is carried as
the number `left` of iterations remaining (`left = maxWorkers - i`), so the
recursion is structural. -/
def distributeLoop (urls : List Entry) (rootUrl : String) (maxDepth timeout upw : Nat)
    (i : Nat) : Nat → List WorkerTask
  | 0 => []
  | left + 1 =>
    if i * upw < urls.length then
      let workerUrls := (urls.drop (i * upw)).take upw
      let rest := distributeLoop urls rootUrl maxDepth timeout upw (i + 1) left
      if workerUrls.length > 0 then mkWorkerTask urls rootUrl maxDepth timeout upw i :: rest
      else rest
    else []

/-- Embedding of `distributeUrls` from `src/crawler/parallel-crawler.ts`:
split the frontier into at most `maxWorkers` contiguous slices of
`ceil(len / maxWorkers)` entries each. -/
def distributeUrls (urls : List Entry) (rootUrl : String) (maxDepth timeout maxWorkers : Nat) :
    List WorkerTask :=
  distributeLoop urls rootUrl maxDepth timeout (jsCeilDiv urls.length maxWorkers) 0 maxWorkers

/-- Phase 1 of `CrawlerWorker.processUrls` (`src/crawler/worker.ts`): the
synchronous prologue of every `processPage` promise runs in slice order
before any fetch completes, so an entry is kept exactly when its URL was not
seen earlier in the slice and its depth does not exceed `maxDepth`; kept
entries are added to the worker-local visited set immediately. -/
def acceptEntries (maxDepth : Nat) (vis : List String) : List Entry → List Entry
  | [] => []
  | e :: rest =>
    if e.url ∈ vis ∨ e.depth > maxDepth then acceptEntries maxDepth vis rest
    else e :: acceptEntries maxDepth (e.url :: vis) rest

/-- Phase 2 of `CrawlerWorker.processPage` for the accepted entries: fetch
the page (skip the entry silently on failure), extract links, record a
`PageResult` whose ratio compares each link to the page URL, and, when
`depth < maxDepth`, emit `(link, depth+1)` for every link not in the
worker-local visited set that is same-domain with the task's root URL.
By the time any fetch completes, the worker-local visited set holds all
accepted URLs of the slice, which is the `wvisited` argument. -/
def processAccepted (net : String → Option String) (extract : String → String → List String)
    (rootUrl : String) (maxDepth : Nat) (wvisited : List String) :
    List Entry → List PageResult × List Entry
  | [] => ([], [])
  | e :: rest =>
    let tail := processAccepted net extract rootUrl maxDepth wvisited rest
    match fetchPage net e.url with
    | none => tail
    | some html =>
      let links := extract html e.url
      let q := calculateRatio links e.url (fun link pageUrl => isSameDomain link pageUrl rootUrl)
      let discovered :=
        if e.depth < maxDepth then
          (links.filter
            (fun link => decide (link ∉ wvisited) && isSameDomain link rootUrl rootUrl)).map
            (fun link => Entry.mk link (e.depth + 1))
        else []
      (⟨e.url, e.depth, q⟩ :: tail.1, discovered ++ tail.2)

/-- Embedding of one worker thread run (`CrawlerWorker.processUrls`):
dedup/depth-filter the slice, then process every accepted entry; the
happy path posts a `WorkerResult` with no error field. -/
def processTask (net : String → Option String) (extract : String → String → List String)
    (t : WorkerTask) : WorkerResult :=
  let accepted := acceptEntries t.maxDepth [] t.urls
  let wvisited := accepted.map (fun e => e.url)
  let out := processAccepted net extract t.rootUrl t.maxDepth wvisited accepted
  ⟨t.id, out.1, out.2, none⟩

/-- The coordinator's admission loop over one worker's `newUrls`
(`processWorkerResults` in `src/crawler/parallel-crawler.ts`): keep an
entry iff its URL is not yet in the global visited set and is same-domain
with the root; admitted URLs enter the visited set immediately. -/
def dedupNewUrls (rootUrl : String) (visited : List String) :
    List Entry → List String × List Entry
  | [] => (visited, [])
  | u :: rest =>
    if u.url ∉ visited ∧ isSameDomain u.url rootUrl rootUrl then
      let out := dedupNewUrls rootUrl (u.url :: visited) rest
      (out.1, u :: out.2)
    else dedupNewUrls rootUrl visited rest

/-- Embedding of `processWorkerResults`: for each worker result in order,
a result carrying an error is logged and skipped; otherwise its page
results are appended to the accumulator and its discovered links go
through admission.  Returns the new visited set, accumulator, and the
next frontier. -/
def processWorkerResults (rootUrl : String) (visited : List String)
    (results : List PageResult) :
    List WorkerResult → List String × List PageResult × List Entry
  | [] => (visited, results, [])
  | wr :: rest =>
    if wr.error.isSome then processWorkerResults rootUrl visited results rest
    else
      let adm := dedupNewUrls rootUrl visited wr.newUrls
      let out := processWorkerResults rootUrl adm.1 (results ++ wr.results) rest
      (out.1, out.2.1, adm.2 ++ out.2.2)

/-- What dispatching one task to a worker thread can yield: a posted
message (a `WorkerResult`, possibly with an error field), or a crash of
the executor itself (the `error` / non-zero `exit` events, which reject
that worker's promise). -/
inductive ExecOutcome where
  | msg (r : WorkerResult)
  | crash
deriving DecidableEq

/-- Embedding of `executeWorkerTasks`: `Promise.all` over the per-task
promises — it yields all messages only if no worker crashed, and rejects
(`none`) as soon as any worker crashes. -/
def executeWorkerTasks (exec : WorkerTask → ExecOutcome) :
    List WorkerTask → Option (List WorkerResult)
  | [] => some []
  | t :: rest =>
    match exec t with
    | ExecOutcome.crash => none
    | ExecOutcome.msg r =>
      match executeWorkerTasks exec rest with
      | none => none
      | some rs => some (r :: rs)

/-- The coordinator's mutable state: the global visited set, the result
accumulator, and the current frontier (`currentUrls`). -/
structure CrawlState where
  visited : List String
  results : List PageResult
  frontier : List Entry
deriving DecidableEq

/-- The `CrawlOptions` configuration (`src/types/index.ts`). -/
structure CrawlOptions where
  rootUrl : String
  maxDepth : Nat
  timeout : Nat
  maxWorkers : Nat

/-- The state on entering the crawl loop: the frontier is seeded with the
root at depth 0 and the root URL is placed in `visited` before round 0. -/
def initState (cfg : CrawlOptions) : CrawlState :=
  ⟨[cfg.rootUrl], [], [⟨cfg.rootUrl, 0⟩]⟩

/-- One round of the crawl loop body: distribute the frontier, run all
tasks, and merge.  `none` means the loop `break`s: either zero tasks were
produced, or `Promise.all` rejected because a worker crashed (the `catch`
branch of `crawl`). -/
def runRound (cfg : CrawlOptions) (exec : WorkerTask → ExecOutcome) (st : CrawlState) :
    Option CrawlState :=
  let tasks := distributeUrls st.frontier cfg.rootUrl cfg.maxDepth cfg.timeout cfg.maxWorkers
  if tasks.isEmpty then none
  else
    match executeWorkerTasks exec tasks with
    | none => none
    | some wrs =>
      let out := processWorkerResults cfg.rootUrl st.visited st.results wrs
      some ⟨out.1, out.2.1, out.2.2⟩

/-- Embedding of the `while (currentUrls.length > 0)` loop of `crawl`.
`fuel` bounds the number of rounds; the termination theorems show
`maxDepth + 1` rounds always suffice. -/
def crawlLoop (cfg : CrawlOptions) (exec : WorkerTask → ExecOutcome) :
    Nat → CrawlState → CrawlState
  | 0, st => st
  | fuel + 1, st =>
    if st.frontier.isEmpty then st
    else
      match runRound cfg exec st with
      | none => st
      | some st2 => crawlLoop cfg exec fuel st2

/-- The crawl with an explicit executor oracle; returns the accumulator. -/
def crawlWithExec (cfg : CrawlOptions) (exec : WorkerTask → ExecOutcome) (fuel : Nat) :
    List PageResult :=
  (crawlLoop cfg exec fuel (initState cfg)).results

/-- The executor behaviour when no worker thread crashes: each task is
processed by `CrawlerWorker` and posts its result. -/
def honestExec (net : String → Option String) (extract : String → String → List String) :
    WorkerTask → ExecOutcome :=
  fun t => ExecOutcome.msg (processTask net extract t)

/-- Embedding of `ParallelWebCrawler.crawl` with healthy worker threads. -/
def crawl (cfg : CrawlOptions) (net : String → Option String)
    (extract : String → String → List String) (fuel : Nat) : List PageResult :=
  crawlWithExec cfg (honestExec net extract) fuel

/-- A network oracle on which every fetch fails. -/
def failNet : String → Option String := fun _ => none

/-- A link extractor that finds no links. -/
def emptyExtract : String → String → List String := fun _ _ => []

/-- A two-worker configuration crawling `http://a.com` to depth 1. -/
def cfgTwo : CrawlOptions := ⟨"http://a.com", 1, 1000, 2⟩

/-- A two-worker configuration with `maxDepth = 0`. -/
def cfgZero : CrawlOptions := ⟨"http://a.com", 0, 1000, 2⟩

/-- A three-page site: the root links to pages `b` and `c`. -/
def siteNet : String → Option String := fun u =>
  if u = "http://a.com" then some "H"
  else if u = "http://a.com/b" then some "B"
  else if u = "http://a.com/c" then some "C"
  else none

/-- Link extraction for `siteNet`: only the root page has links. -/
def siteExtract : String → String → List String := fun html _ =>
  if html = "H" then ["http://a.com/b", "http://a.com/c"] else []

/-- An executor pool in which the worker whose slice contains page `b`
crashes, while every other worker runs `CrawlerWorker` normally. -/
def crashExec : WorkerTask → ExecOutcome := fun t =>
  if t.urls.any (fun e => decide (e.url = "http://a.com/b")) then ExecOutcome.crash
  else ExecOutcome.msg (processTask siteNet siteExtract t)

/-- The round-1 task holding page `b` under `cfgTwo` on the three-page site. -/
def taskB : WorkerTask := ⟨"worker-0", [⟨"http://a.com/b", 1⟩], "http://a.com", 1, 1000⟩

/-- The round-1 task holding page `c` under `cfgTwo` on the three-page site. -/
def taskC : WorkerTask := ⟨"worker-1", [⟨"http://a.com/c", 1⟩], "http://a.com", 1, 1000⟩

/-- The coordinator state entering round 1 of the three-page crawl. -/
def stRound1 : CrawlState :=
  ⟨["http://a.com/c", "http://a.com/b", "http://a.com"], [],
   [⟨"http://a.com/b", 1⟩, ⟨"http://a.com/c", 1⟩]⟩

/-- A state whose frontier is exhausted. -/
def stDone : CrawlState := ⟨["http://a.com"], [], []⟩

/-- Ten frontier entries, for the distribution scenario. -/
def tenEntries : List Entry :=
  [⟨"http://t/0", 1⟩, ⟨"http://t/1", 1⟩, ⟨"http://t/2", 1⟩, ⟨"http://t/3", 1⟩,
   ⟨"http://t/4", 1⟩, ⟨"http://t/5", 1⟩, ⟨"http://t/6", 1⟩, ⟨"http://t/7", 1⟩,
   ⟨"http://t/8", 1⟩, ⟨"http://t/9", 1⟩]

theorem distributeLoop_zero (urls : List Entry) (r : String) (md tmo upw i : Nat) :
    distributeLoop urls r md tmo upw i 0 = [] := rfl

theorem distributeLoop_stop (urls : List Entry) (r : String) (md tmo upw i left : Nat)
    (hcond : ¬ i * upw < urls.length) :
    distributeLoop urls r md tmo upw i left = [] := by
  cases left with
  | zero => rfl
  | succ left => rw [distributeLoop, if_neg hcond]

theorem distributeLoop_cons (urls : List Entry) (r : String) (md tmo upw i left : Nat)
    (hupw : 0 < upw) (hcond : i * upw < urls.length) :
    distributeLoop urls r md tmo upw i (left + 1) =
      mkWorkerTask urls r md tmo upw i :: distributeLoop urls r md tmo upw (i + 1) left := by
  rw [distributeLoop, if_pos hcond]
  have hlen : ((urls.drop (i * upw)).take upw).length > 0 := by
    simp only [List.length_take, List.length_drop]
    omega
  simp only [hlen, if_pos]

theorem distributeLoop_length_le (urls : List Entry) (r : String) (md tmo upw : Nat) :
    ∀ left i, (distributeLoop urls r md tmo upw i left).length ≤ left := by
  intro left
  induction left with
  | zero => intro i; simp [distributeLoop_zero]
  | succ left ih =>
    intro i
    by_cases hcond : i * upw < urls.length
    · rw [distributeLoop, if_pos hcond]
      by_cases h2 : ((urls.drop (i * upw)).take upw).length > 0
      · simp only [h2, if_pos, List.length_cons]
        exact Nat.succ_le_succ (ih (i + 1))
      · simp only [h2, if_neg, Bool.false_eq_true, ite_false]
        exact Nat.le_succ_of_le (ih (i + 1))
    · rw [distributeLoop_stop urls r md tmo upw i _ hcond]
      exact Nat.zero_le _

theorem distributeLoop_join (urls : List Entry) (r : String) (md tmo upw : Nat)
    (hupw : 0 < upw) :
    ∀ left i, urls.length ≤ (i + left) * upw →
      ((distributeLoop urls r md tmo upw i left).map (fun t => t.urls)).flatten =
        urls.drop (i * upw) := by
  intro left
  induction left with
  | zero =>
    intro i hle
    rw [distributeLoop_zero]
    simp only [List.map_nil, List.flatten_nil]
    rw [List.drop_eq_nil_of_le]
    simpa using hle
  | succ left ih =>
    intro i hle
    by_cases hcond : i * upw < urls.length
    · rw [distributeLoop_cons urls r md tmo upw i left hupw hcond]
      simp only [List.map_cons, List.flatten_cons, mkWorkerTask]
      rw [ih (i + 1) (by nlinarith)]
      have hdd : urls.drop ((i + 1) * upw) = (urls.drop (i * upw)).drop upw := by
        rw [List.drop_drop]
        congr 1
        ring
      rw [hdd, List.take_append_drop]
    · rw [distributeLoop_stop urls r md tmo upw i _ hcond]
      simp only [List.map_nil, List.flatten_nil]
      rw [List.drop_eq_nil_of_le]
      omega

theorem distributeLoop_getElem (urls : List Entry) (r : String) (md tmo upw : Nat)
    (hupw : 0 < upw) :
    ∀ left i j, j < (distributeLoop urls r md tmo upw i left).length →
      (distributeLoop urls r md tmo upw i left)[j]? =
        some (mkWorkerTask urls r md tmo upw (i + j)) := by
  intro left
  induction left with
  | zero => intro i j h; simp [distributeLoop_zero] at h
  | succ left ih =>
    intro i j h
    by_cases hcond : i * upw < urls.length
    · rw [distributeLoop_cons urls r md tmo upw i left hupw hcond] at h ⊢
      cases j with
      | zero => simp
      | succ j =>
        simp only [List.length_cons, Nat.succ_lt_succ_iff] at h
        rw [List.getElem?_cons_succ, ih (i + 1) j h]
        have heq : i + 1 + j = i + (j + 1) := by omega
        rw [heq]
    · rw [distributeLoop_stop urls r md tmo upw i _ hcond] at h
      simp at h

theorem distributeLoop_get_valid (urls : List Entry) (r : String) (md tmo upw : Nat)
    (hupw : 0 < upw) :
    ∀ left i j, j < (distributeLoop urls r md tmo upw i left).length →
      (i + j) * upw < urls.length ∧ j < left := by
  intro left
  induction left with
  | zero => intro i j h; simp [distributeLoop_zero] at h
  | succ left ih =>
    intro i j h
    by_cases hcond : i * upw < urls.length
    · rw [distributeLoop_cons urls r md tmo upw i left hupw hcond] at h
      cases j with
      | zero => exact ⟨by simpa using hcond, Nat.succ_pos left⟩
      | succ j =>
        simp only [List.length_cons, Nat.succ_lt_succ_iff] at h
        have hv := ih (i + 1) j h
        have h1 : (i + 1 + j) * upw < urls.length := hv.1
        have heq : i + 1 + j = i + (j + 1) := by omega
        rw [heq] at h1
        exact ⟨h1, by omega⟩
    · rw [distributeLoop_stop urls r md tmo upw i _ hcond] at h
      simp at h

theorem mem_distributeLoop (urls : List Entry) (r : String) (md tmo upw : Nat) :
    ∀ left i t, t ∈ distributeLoop urls r md tmo upw i left →
      t.urls.Sublist urls ∧ t.maxDepth = md ∧ t.rootUrl = r ∧ t.timeout = tmo ∧
        ∃ k, t.urls = (urls.drop (k * upw)).take upw := by
  intro left
  induction left with
  | zero => intro i t h; simp [distributeLoop_zero] at h
  | succ left ih =>
    intro i t h
    by_cases hcond : i * upw < urls.length
    · rw [distributeLoop, if_pos hcond] at h
      by_cases h2 : ((urls.drop (i * upw)).take upw).length > 0
      · simp only [h2, if_pos, List.mem_cons] at h
        rcases h with h | h
        · subst h
          refine ⟨?_, rfl, rfl, rfl, i, rfl⟩
          exact ((urls.drop (i * upw)).take_sublist upw).trans (urls.drop_sublist (i * upw))
        · exact ih (i + 1) t h
      · simp only [h2, if_neg, Bool.false_eq_true, ite_false] at h
        exact ih (i + 1) t h
    · rw [distributeLoop_stop urls r md tmo upw i _ hcond] at h
      simp at h

theorem le_mul_jsCeilDiv (a b : Nat) (hb : 0 < b) : a ≤ b * jsCeilDiv a b := by
  unfold jsCeilDiv
  have h := Nat.div_add_mod (a + b - 1) b
  have hlt := Nat.mod_lt (a + b - 1) hb
  omega

theorem jsCeilDiv_pos (a b : Nat) (hb : 0 < b) (ha : 0 < a) : 0 < jsCeilDiv a b := by
  unfold jsCeilDiv
  exact (Nat.le_div_iff_mul_le hb).mpr (by omega)

theorem distributeUrls_nil (r : String) (md tmo wc : Nat) :
    distributeUrls [] r md tmo wc = [] := by
  unfold distributeUrls
  apply distributeLoop_stop
  simp

theorem flatten_sublist_flatten {α β : Type} (f g : α → List β) :
    ∀ ts : List α, (∀ t ∈ ts, (f t).Sublist (g t)) →
      ((ts.map f).flatten).Sublist ((ts.map g).flatten) := by
  intro ts
  induction ts with
  | nil => intro _; simp
  | cons a ts ih =>
    intro h
    simp only [List.map_cons, List.flatten_cons]
    exact (h a (List.mem_cons_self a ts)).append (ih fun t ht => h t (List.mem_cons_of_mem a ht))

theorem mem_acceptEntries (md : Nat) :
    ∀ (es : List Entry) (vis : List String) (e : Entry), e ∈ acceptEntries md vis es →
      e ∈ es ∧ e.depth ≤ md ∧ e.url ∉ vis := by
  intro es
  induction es with
  | nil => intro vis e h; simp [acceptEntries] at h
  | cons a es ih =>
    intro vis e h
    rw [acceptEntries] at h
    by_cases hc : a.url ∈ vis ∨ a.depth > md
    · rw [if_pos hc] at h
      have hv := ih vis e h
      exact ⟨List.mem_cons_of_mem a hv.1, hv.2.1, hv.2.2⟩
    · rw [if_neg hc] at h
      push_neg at hc
      rcases List.mem_cons.mp h with rfl | he
      · exact ⟨List.mem_cons_self _ _, by omega, hc.1⟩
      · have hv := ih (a.url :: vis) e he
        refine ⟨List.mem_cons_of_mem a hv.1, hv.2.1, fun hmem => hv.2.2 ?_⟩
        exact List.mem_cons_of_mem a.url hmem

theorem acceptEntries_urls_nodup (md : Nat) :
    ∀ (es : List Entry) (vis : List String),
      ((acceptEntries md vis es).map (fun e => e.url)).Nodup := by
  intro es
  induction es with
  | nil => intro vis; simp [acceptEntries]
  | cons a es ih =>
    intro vis
    rw [acceptEntries]
    by_cases hc : a.url ∈ vis ∨ a.depth > md
    · rw [if_pos hc]
      exact ih vis
    · rw [if_neg hc]
      simp only [List.map_cons, List.nodup_cons]
      refine ⟨fun hmem => ?_, ih (a.url :: vis)⟩
      rcases List.mem_map.mp hmem with ⟨e, he, heq⟩
      have hv := mem_acceptEntries md es (a.url :: vis) e he
      exact hv.2.2 (heq ▸ List.mem_cons_self a.url vis)

theorem acceptEntries_sublist (md : Nat) :
    ∀ (es : List Entry) (vis : List String), (acceptEntries md vis es).Sublist es := by
  intro es
  induction es with
  | nil => intro vis; simp [acceptEntries]
  | cons a es ih =>
    intro vis
    rw [acceptEntries]
    by_cases hc : a.url ∈ vis ∨ a.depth > md
    · rw [if_pos hc]
      exact (ih vis).cons a
    · rw [if_neg hc]
      exact (ih (a.url :: vis)).cons₂ a

theorem processAccepted_results_urls_sublist (net : String → Option String)
    (extract : String → String → List String) (rootUrl : String) (md : Nat)
    (wv : List String) :
    ∀ l : List Entry,
      (((processAccepted net extract rootUrl md wv l).1).map (fun r => r.url)).Sublist
        (l.map (fun e => e.url)) := by
  intro l
  induction l with
  | nil => simp [processAccepted]
  | cons e l ih =>
    rw [processAccepted]
    cases hf : fetchPage net e.url with
    | none =>
      simp only [List.map_cons]
      exact ih.cons e.url
    | some html =>
      simp only [List.map_cons]
      exact ih.cons₂ e.url

theorem mem_processAccepted_results (net : String → Option String)
    (extract : String → String → List String) (rootUrl : String) (md : Nat)
    (wv : List String) :
    ∀ (l : List Entry) (r : PageResult), r ∈ (processAccepted net extract rootUrl md wv l).1 →
      ∃ e, e ∈ l ∧ ∃ html, fetchPage net e.url = some html ∧
        r = ⟨e.url, e.depth,
          calculateRatio (extract html e.url) e.url
            (fun link pageUrl => isSameDomain link pageUrl rootUrl)⟩ := by
  intro l
  induction l with
  | nil => intro r h; simp [processAccepted] at h
  | cons e l ih =>
    intro r h
    rw [processAccepted] at h
    cases hf : fetchPage net e.url with
    | none =>
      rw [hf] at h
      rcases ih r h with ⟨e2, he2, rest⟩
      exact ⟨e2, List.mem_cons_of_mem e he2, rest⟩
    | some html =>
      rw [hf] at h
      rcases List.mem_cons.mp h with he | he
      · exact ⟨e, List.mem_cons_self e l, html, hf, he⟩
      · rcases ih r he with ⟨e2, he2, rest⟩
        exact ⟨e2, List.mem_cons_of_mem e he2, rest⟩

theorem mem_processAccepted_newUrls (net : String → Option String)
    (extract : String → String → List String) (rootUrl : String) (md : Nat)
    (wv : List String) :
    ∀ (l : List Entry) (u : Entry), u ∈ (processAccepted net extract rootUrl md wv l).2 →
      ∃ e, e ∈ l ∧ e.depth < md ∧ u.depth = e.depth + 1 ∧
        isSameDomain u.url rootUrl rootUrl = true ∧ u.url ∉ wv ∧
        ∃ html, fetchPage net e.url = some html := by
  intro l
  induction l with
  | nil => intro u h; simp [processAccepted] at h
  | cons e l ih =>
    intro u h
    rw [processAccepted] at h
    cases hf : fetchPage net e.url with
    | none =>
      rw [hf] at h
      rcases ih u h with ⟨e2, he2, rest⟩
      exact ⟨e2, List.mem_cons_of_mem e he2, rest⟩
    | some html =>
      rw [hf] at h
      simp only at h
      rcases List.mem_append.mp h with he | he
      · by_cases hd : e.depth < md
        · rw [if_pos hd] at he
          rcases List.mem_map.mp he with ⟨link, hlink, hequ⟩
          have hp := List.of_mem_filter hlink
          simp only [Bool.and_eq_true, decide_eq_true_eq] at hp
          refine ⟨e, List.mem_cons_self e l, hd, ?_, ?_, ?_, html, hf⟩
          · rw [← hequ]
          · rw [← hequ]
            exact hp.2
          · rw [← hequ]
            exact hp.1
        · rw [if_neg hd] at he
          simp at he
      · rcases ih u he with ⟨e2, he2, rest⟩
        exact ⟨e2, List.mem_cons_of_mem e he2, rest⟩

theorem processAccepted_fetch_some_mem (net : String → Option String)
    (extract : String → String → List String) (rootUrl : String) (md : Nat)
    (wv : List String) :
    ∀ (l : List Entry) (e : Entry) (html : String), e ∈ l →
      fetchPage net e.url = some html →
      e.url ∈ ((processAccepted net extract rootUrl md wv l).1).map (fun r => r.url) := by
  intro l
  induction l with
  | nil => intro e html h; simp at h
  | cons a l ih =>
    intro e html hmem hf
    rw [processAccepted]
    rcases List.mem_cons.mp hmem with he | he
    · subst he
      rw [hf]
      simp
    · cases hfa : fetchPage net a.url with
      | none => exact ih e html he hf
      | some html2 =>
        simp only [List.map_cons]
        exact List.mem_cons_of_mem a.url (ih e html he hf)

theorem processTask_error (net : String → Option String)
    (extract : String → String → List String) (t : WorkerTask) :
    (processTask net extract t).error = none := rfl

theorem processTask_results_urls_sublist (net : String → Option String)
    (extract : String → String → List String) (t : WorkerTask) :
    (((processTask net extract t).results).map (fun r => r.url)).Sublist
      (t.urls.map (fun e => e.url)) := by
  unfold processTask
  exact (processAccepted_results_urls_sublist net extract t.rootUrl t.maxDepth _ _).trans
    ((acceptEntries_sublist t.maxDepth t.urls []).map (fun e => e.url))

theorem processTask_results_urls_nodup (net : String → Option String)
    (extract : String → String → List String) (t : WorkerTask) :
    (((processTask net extract t).results).map (fun r => r.url)).Nodup := by
  unfold processTask
  exact (acceptEntries_urls_nodup t.maxDepth t.urls []).sublist
    (processAccepted_results_urls_sublist net extract t.rootUrl t.maxDepth _ _)

theorem mem_processTask_results (net : String → Option String)
    (extract : String → String → List String) (t : WorkerTask) (r : PageResult) :
    r ∈ (processTask net extract t).results →
      ∃ e, e ∈ t.urls ∧ e.depth ≤ t.maxDepth ∧ ∃ html, fetchPage net e.url = some html ∧
        r = ⟨e.url, e.depth,
          calculateRatio (extract html e.url) e.url
            (fun link pageUrl => isSameDomain link pageUrl t.rootUrl)⟩ := by
  intro h
  rcases mem_processAccepted_results net extract t.rootUrl t.maxDepth _ _ r h with
    ⟨e, he, html, hf, hr⟩
  have hv := mem_acceptEntries t.maxDepth t.urls [] e he
  exact ⟨e, hv.1, hv.2.1, html, hf, hr⟩

theorem mem_processTask_newUrls (net : String → Option String)
    (extract : String → String → List String) (t : WorkerTask) (u : Entry) :
    u ∈ (processTask net extract t).newUrls →
      ∃ e, e ∈ t.urls ∧ e.depth < t.maxDepth ∧ u.depth = e.depth + 1 ∧
        isSameDomain u.url t.rootUrl t.rootUrl = true ∧
        ∃ html, fetchPage net e.url = some html := by
  intro h
  rcases mem_processAccepted_newUrls net extract t.rootUrl t.maxDepth _ _ u h with
    ⟨e, he, hd, hdepth, hsame, _, html, hf⟩
  have hv := mem_acceptEntries t.maxDepth t.urls [] e he
  exact ⟨e, hv.1, hd, hdepth, hsame, html, hf⟩

theorem processTask_fetch_none_not_mem (net : String → Option String)
    (extract : String → String → List String) (t : WorkerTask) (u : String) :
    fetchPage net u = none →
      u ∉ ((processTask net extract t).results).map (fun r => r.url) := by
  intro hf hmem
  rcases List.mem_map.mp hmem with ⟨r, hr, hru⟩
  rcases mem_processTask_results net extract t r hr with ⟨e, _, _, html, hfe, hre⟩
  rw [hre] at hru
  simp only at hru
  rw [hru] at hfe
  rw [hf] at hfe
  exact Option.noConfusion hfe

theorem processTask_singleton_fetch_none (net : String → Option String)
    (extract : String → String → List String) (id root : String) (u : String)
    (d md tm : Nat) :
    fetchPage net u = none →
      processTask net extract ⟨id, [⟨u, d⟩], root, md, tm⟩ = ⟨id, [], [], none⟩ := by
  intro hf
  unfold processTask
  rw [acceptEntries]
  by_cases hd : d > md
  · have : (⟨u, d⟩ : Entry).url ∈ ([] : List String) ∨ (⟨u, d⟩ : Entry).depth > md := by
      right
      exact hd
    rw [if_pos this]
    rfl
  · have : ¬((⟨u, d⟩ : Entry).url ∈ ([] : List String) ∨ (⟨u, d⟩ : Entry).depth > md) := by
      simp only [List.not_mem_nil, false_or]
      exact hd
    rw [if_neg this]
    rw [acceptEntries]
    show (⟨id, (processAccepted net extract root md _ [⟨u, d⟩]).1,
      (processAccepted net extract root md _ [⟨u, d⟩]).2, none⟩ : WorkerResult) = _
    rw [processAccepted, hf]
    rfl

theorem dedupNewUrls_mem_visited (rootUrl : String) :
    ∀ (us : List Entry) (visited : List String) (x : String),
      x ∈ (dedupNewUrls rootUrl visited us).1 ↔
        x ∈ visited ∨ x ∈ ((dedupNewUrls rootUrl visited us).2).map (fun u => u.url) := by
  intro us
  induction us with
  | nil => intro visited x; simp [dedupNewUrls]
  | cons u rest ih =>
    intro visited x
    rw [dedupNewUrls]
    by_cases hc : u.url ∉ visited ∧ isSameDomain u.url rootUrl rootUrl
    · rw [if_pos hc]
      simp only [List.map_cons, List.mem_cons]
      rw [ih (u.url :: visited) x]
      simp only [List.mem_cons]
      tauto
    · rw [if_neg hc]
      exact ih visited x

theorem mem_dedupNewUrls (rootUrl : String) :
    ∀ (us : List Entry) (visited : List String) (u : Entry),
      u ∈ (dedupNewUrls rootUrl visited us).2 →
        u ∈ us ∧ u.url ∉ visited ∧ isSameDomain u.url rootUrl rootUrl = true := by
  intro us
  induction us with
  | nil => intro visited u h; simp [dedupNewUrls] at h
  | cons a rest ih =>
    intro visited u h
    rw [dedupNewUrls] at h
    by_cases hc : a.url ∉ visited ∧ isSameDomain a.url rootUrl rootUrl
    · rw [if_pos hc] at h
      rcases List.mem_cons.mp h with rfl | he
      · exact ⟨List.mem_cons_self _ _, hc.1, hc.2⟩
      · have hv := ih (a.url :: visited) u he
        exact ⟨List.mem_cons_of_mem a hv.1,
          fun hmem => hv.2.1 (List.mem_cons_of_mem a.url hmem), hv.2.2⟩
    · rw [if_neg hc] at h
      have hv := ih visited u h
      exact ⟨List.mem_cons_of_mem a hv.1, hv.2.1, hv.2.2⟩

theorem dedupNewUrls_urls_nodup (rootUrl : String) :
    ∀ (us : List Entry) (visited : List String),
      (((dedupNewUrls rootUrl visited us).2).map (fun u => u.url)).Nodup := by
  intro us
  induction us with
  | nil => intro visited; simp [dedupNewUrls]
  | cons a rest ih =>
    intro visited
    rw [dedupNewUrls]
    by_cases hc : a.url ∉ visited ∧ isSameDomain a.url rootUrl rootUrl
    · rw [if_pos hc]
      simp only [List.map_cons, List.nodup_cons]
      refine ⟨fun hmem => ?_, ih (a.url :: visited)⟩
      rcases List.mem_map.mp hmem with ⟨u, hu, huq⟩
      have hv := mem_dedupNewUrls rootUrl rest (a.url :: visited) u hu
      exact hv.2.1 (huq ▸ List.mem_cons_self a.url visited)
    · rw [if_neg hc]
      exact ih visited

theorem processWorkerResults_results (rootUrl : String) :
    ∀ (wrs : List WorkerResult) (vis : List String) (res : List PageResult),
      (processWorkerResults rootUrl vis res wrs).2.1 =
        res ++ (((wrs.filter (fun w => w.error.isNone)).map (fun w => w.results)).flatten) := by
  intro wrs
  induction wrs with
  | nil => intro vis res; simp [processWorkerResults]
  | cons wr rest ih =>
    intro vis res
    rw [processWorkerResults]
    by_cases hc : wr.error.isSome
    · rw [if_pos hc]
      rw [ih vis res]
      have : wr.error.isNone = false := by
        cases h : wr.error
        · rw [h] at hc
          simp at hc
        · simp [h]
      rw [List.filter_cons, this]
      simp
    · rw [if_neg hc]
      simp only
      rw [ih]
      have : wr.error.isNone = true := by
        cases h : wr.error
        · simp
        · rw [h] at hc
          simp at hc
      rw [List.filter_cons, this]
      simp

theorem processWorkerResults_mem_visited (rootUrl : String) :
    ∀ (wrs : List WorkerResult) (vis : List String) (res : List PageResult) (x : String),
      x ∈ (processWorkerResults rootUrl vis res wrs).1 ↔
        x ∈ vis ∨ x ∈ ((processWorkerResults rootUrl vis res wrs).2.2).map (fun u => u.url) := by
  intro wrs
  induction wrs with
  | nil => intro vis res x; simp [processWorkerResults]
  | cons wr rest ih =>
    intro vis res x
    rw [processWorkerResults]
    by_cases hc : wr.error.isSome
    · rw [if_pos hc]
      exact ih vis res x
    · rw [if_neg hc]
      simp only [List.map_append, List.mem_append]
      rw [ih _ _ x, dedupNewUrls_mem_visited rootUrl wr.newUrls vis x]
      tauto

theorem mem_processWorkerResults_newUrls (rootUrl : String) :
    ∀ (wrs : List WorkerResult) (vis : List String) (res : List PageResult) (u : Entry),
      u ∈ (processWorkerResults rootUrl vis res wrs).2.2 →
        (∃ wr, wr ∈ wrs ∧ wr.error.isSome = false ∧ u ∈ wr.newUrls) ∧
          u.url ∉ vis ∧ isSameDomain u.url rootUrl rootUrl = true := by
  intro wrs
  induction wrs with
  | nil => intro vis res u h; simp [processWorkerResults] at h
  | cons wr rest ih =>
    intro vis res u h
    rw [processWorkerResults] at h
    by_cases hc : wr.error.isSome
    · rw [if_pos hc] at h
      rcases ih vis res u h with ⟨⟨w, hw, hrest⟩, hvis, hsame⟩
      exact ⟨⟨w, List.mem_cons_of_mem wr hw, hrest⟩, hvis, hsame⟩
    · rw [if_neg hc] at h
      simp only at h
      rcases List.mem_append.mp h with he | he
      · have hv := mem_dedupNewUrls rootUrl wr.newUrls vis u he
        exact ⟨⟨wr, List.mem_cons_self _ _, Bool.eq_false_iff.mpr hc, hv.1⟩, hv.2.1, hv.2.2⟩
      · rcases ih _ _ u he with ⟨⟨w, hw, hrest⟩, hvis, hsame⟩
        refine ⟨⟨w, List.mem_cons_of_mem wr hw, hrest⟩, fun hmem => hvis ?_, hsame⟩
        rw [dedupNewUrls_mem_visited]
        exact Or.inl hmem

theorem processWorkerResults_newUrls_nodup (rootUrl : String) :
    ∀ (wrs : List WorkerResult) (vis : List String) (res : List PageResult),
      (((processWorkerResults rootUrl vis res wrs).2.2).map (fun u => u.url)).Nodup := by
  intro wrs
  induction wrs with
  | nil => intro vis res; simp [processWorkerResults]
  | cons wr rest ih =>
    intro vis res
    rw [processWorkerResults]
    by_cases hc : wr.error.isSome
    · rw [if_pos hc]
      exact ih vis res
    · rw [if_neg hc]
      simp only [List.map_append]
      refine List.Nodup.append (dedupNewUrls_urls_nodup rootUrl wr.newUrls vis) (ih _ _) ?_
      intro x hx1 hx2
      rcases List.mem_map.mp hx2 with ⟨u, hu, huq⟩
      have hv := (mem_processWorkerResults_newUrls rootUrl rest _ _ u hu).2.1
      apply hv
      rw [dedupNewUrls_mem_visited]
      right
      rw [huq]
      exact hx1

theorem executeWorkerTasks_honest (net : String → Option String)
    (extract : String → String → List String) :
    ∀ ts : List WorkerTask,
      executeWorkerTasks (honestExec net extract) ts =
        some (ts.map (processTask net extract)) := by
  intro ts
  induction ts with
  | nil => rfl
  | cons t rest ih =>
    rw [executeWorkerTasks]
    show (match executeWorkerTasks (honestExec net extract) rest with
      | none => none
      | some rs => some (processTask net extract t :: rs)) = _
    rw [ih]
    rfl

theorem executeWorkerTasks_crash (exec : WorkerTask → ExecOutcome) :
    ∀ (ts : List WorkerTask) (t : WorkerTask), t ∈ ts → exec t = ExecOutcome.crash →
      executeWorkerTasks exec ts = none := by
  intro ts
  induction ts with
  | nil => intro t h; simp at h
  | cons a rest ih =>
    intro t hmem hcrash
    rw [executeWorkerTasks]
    rcases List.mem_cons.mp hmem with rfl | he
    · rw [hcrash]
    · cases ha : exec a with
      | crash => rfl
      | msg r =>
        rw [ih t he hcrash]

theorem map_flatten_comm {α β : Type} (f : α → β) :
    ∀ L : List (List α), (L.flatten.map f) = (L.map (fun l => l.map f)).flatten := by
  intro L
  induction L with
  | nil => rfl
  | cons l L ih =>
    simp only [List.flatten_cons, List.map_append, List.map_cons, ih]

theorem mem_distributeUrls (urls : List Entry) (r : String) (md tmo wc : Nat)
    (t : WorkerTask) (h : t ∈ distributeUrls urls r md tmo wc) :
    t.urls.Sublist urls ∧ t.maxDepth = md ∧ t.rootUrl = r ∧ t.timeout = tmo := by
  have hv := mem_distributeLoop urls r md tmo (jsCeilDiv urls.length wc) wc 0 t h
  exact ⟨hv.1, hv.2.1, hv.2.2.1, hv.2.2.2.1⟩

theorem distributeUrls_flatten (urls : List Entry) (r : String) (md tmo wc : Nat)
    (hwc : 0 < wc) :
    ((distributeUrls urls r md tmo wc).map (fun t => t.urls)).flatten = urls := by
  cases urls with
  | nil => rw [distributeUrls_nil]; rfl
  | cons a us =>
    unfold distributeUrls
    have hupw : 0 < jsCeilDiv (a :: us).length wc :=
      jsCeilDiv_pos _ wc hwc (by simp)
    have hcov : (a :: us).length ≤ (0 + wc) * jsCeilDiv (a :: us).length wc := by
      have := le_mul_jsCeilDiv (a :: us).length wc hwc
      calc (a :: us).length ≤ wc * jsCeilDiv (a :: us).length wc := this
        _ = (0 + wc) * jsCeilDiv (a :: us).length wc := by ring
    rw [distributeLoop_join (a :: us) r md tmo _ hupw wc 0 hcov]
    simp

theorem crawlLoop_frontier_nil (cfg : CrawlOptions) (exec : WorkerTask → ExecOutcome)
    (fuel : Nat) (st : CrawlState) (h : st.frontier = []) :
    crawlLoop cfg exec fuel st = st := by
  cases fuel with
  | zero => rfl
  | succ fuel =>
    rw [crawlLoop]
    rw [if_pos]
    rw [h]
    rfl

theorem runRound_honest_eq (cfg : CrawlOptions) (net : String → Option String)
    (extract : String → String → List String) (st st2 : CrawlState) :
    runRound cfg (honestExec net extract) st = some st2 ↔
      (distributeUrls st.frontier cfg.rootUrl cfg.maxDepth cfg.timeout cfg.maxWorkers ≠ [] ∧
        st2 = ⟨(processWorkerResults cfg.rootUrl st.visited st.results
                  ((distributeUrls st.frontier cfg.rootUrl cfg.maxDepth cfg.timeout
                    cfg.maxWorkers).map (processTask net extract))).1,
               (processWorkerResults cfg.rootUrl st.visited st.results
                  ((distributeUrls st.frontier cfg.rootUrl cfg.maxDepth cfg.timeout
                    cfg.maxWorkers).map (processTask net extract))).2.1,
               (processWorkerResults cfg.rootUrl st.visited st.results
                  ((distributeUrls st.frontier cfg.rootUrl cfg.maxDepth cfg.timeout
                    cfg.maxWorkers).map (processTask net extract))).2.2⟩) := by
  unfold runRound
  by_cases he : (distributeUrls st.frontier cfg.rootUrl cfg.maxDepth cfg.timeout
      cfg.maxWorkers).isEmpty
  · rw [if_pos he]
    simp only [List.isEmpty_iff] at he
    simp [he]
  · rw [if_neg he]
    rw [executeWorkerTasks_honest]
    simp only [List.isEmpty_iff] at he
    constructor
    · intro h
      exact ⟨he, (Option.some.inj h).symm⟩
    · intro h
      rw [h.2]

theorem honest_filter_isNone (net : String → Option String)
    (extract : String → String → List String) (ts : List WorkerTask) :
    (ts.map (processTask net extract)).filter (fun w => w.error.isNone) =
      ts.map (processTask net extract) := by
  apply List.filter_eq_self.mpr
  intro w hw
  rcases List.mem_map.mp hw with ⟨t, _, ht⟩
  rw [← ht, processTask_error]
  rfl

/-- The coordinator invariant behind the no-duplicate-visitation property:
result URLs and frontier URLs are duplicate-free, both are recorded in the
visited set, and no URL is both already in the accumulator and still in the
frontier. -/
def CrawlInv (st : CrawlState) : Prop :=
  ((st.results.map (fun r => r.url)).Nodup) ∧
  ((st.frontier.map (fun e => e.url)).Nodup) ∧
  (∀ x ∈ st.results.map (fun r => r.url), x ∈ st.visited) ∧
  (∀ x ∈ st.frontier.map (fun e => e.url), x ∈ st.visited) ∧
  (∀ x, x ∈ st.results.map (fun r => r.url) → x ∈ st.frontier.map (fun e => e.url) → False)

theorem initState_inv (cfg : CrawlOptions) : CrawlInv (initState cfg) := by
  refine ⟨by simp [initState], by simp [initState], ?_, ?_, ?_⟩
  · intro x hx
    simp [initState] at hx
  · intro x hx
    simp [initState] at hx ⊢
    exact hx
  · intro x hx
    simp [initState] at hx

theorem runRound_honest_preserves_inv (cfg : CrawlOptions) (net : String → Option String)
    (extract : String → String → List String) (st st2 : CrawlState)
    (hwc : 0 < cfg.maxWorkers) (hinv : CrawlInv st)
    (h : runRound cfg (honestExec net extract) st = some st2) : CrawlInv st2 := by
  rcases (runRound_honest_eq cfg net extract st st2).mp h with ⟨-, hst2⟩
  set tasks := distributeUrls st.frontier cfg.rootUrl cfg.maxDepth cfg.timeout cfg.maxWorkers
    with htasks
  have hres : st2.results = st.results ++
      ((tasks.map (fun t => (processTask net extract t).results)).flatten) := by
    rw [hst2]
    simp only
    rw [processWorkerResults_results, honest_filter_isNone]
    rw [List.map_map]
    rfl
  have hnewurls : ((tasks.map (fun t =>
      ((processTask net extract t).results).map (fun r => r.url))).flatten).Sublist
        (st.frontier.map (fun e => e.url)) := by
    have h1 := flatten_sublist_flatten
      (fun t => ((processTask net extract t).results).map (fun r => r.url))
      (fun t => t.urls.map (fun e => e.url)) tasks
      (fun t _ => processTask_results_urls_sublist net extract t)
    have h2 : (tasks.map (fun t => t.urls.map (fun e => e.url))).flatten =
        st.frontier.map (fun e => e.url) := by
      have h3 := map_flatten_comm (fun e : Entry => e.url) (tasks.map (fun t => t.urls))
      rw [distributeUrls_flatten st.frontier cfg.rootUrl cfg.maxDepth cfg.timeout
        cfg.maxWorkers hwc, List.map_map] at h3
      exact h3.symm
    rw [← h2]
    exact h1
  have hresurls : st2.results.map (fun r => r.url) =
      st.results.map (fun r => r.url) ++
        ((tasks.map (fun t =>
          ((processTask net extract t).results).map (fun r => r.url))).flatten) := by
    rw [hres, List.map_append, map_flatten_comm, List.map_map]
    rfl
  have hfvis : ∀ x ∈ st2.frontier.map (fun u => u.url), x ∈ st2.visited := by
    intro x hx
    rw [hst2]
    simp only
    rw [processWorkerResults_mem_visited]
    right
    rw [hst2] at hx
    exact hx
  have hfnodup : (st2.frontier.map (fun u => u.url)).Nodup := by
    rw [hst2]
    exact processWorkerResults_newUrls_nodup cfg.rootUrl _ _ _
  have hfnotvis : ∀ x ∈ st2.frontier.map (fun u => u.url), x ∉ st.visited := by
    intro x hx
    rw [hst2] at hx
    rcases List.mem_map.mp hx with ⟨u, hu, huq⟩
    have hv := mem_processWorkerResults_newUrls cfg.rootUrl _ _ _ u hu
    rw [← huq]
    exact hv.2.1
  have hrvisold : ∀ x ∈ st2.results.map (fun r => r.url), x ∈ st.visited := by
    intro x hx
    rw [hresurls] at hx
    rcases List.mem_append.mp hx with hold | hnew
    · exact hinv.2.2.1 x hold
    · exact hinv.2.2.2.1 x (hnewurls.subset hnew)
  refine ⟨?_, hfnodup, ?_, hfvis, ?_⟩
  · rw [hresurls]
    refine List.Nodup.append hinv.1 (hinv.2.1.sublist hnewurls) ?_
    intro x hx1 hx2
    exact hinv.2.2.2.2 x hx1 (hnewurls.subset hx2)
  · intro x hx
    rw [hst2]
    simp only
    rw [processWorkerResults_mem_visited]
    left
    exact hrvisold x hx
  · intro x hx1 hx2
    exact hfnotvis x hx2 (hrvisold x hx1)

theorem crawlLoop_preserves_inv (cfg : CrawlOptions) (net : String → Option String)
    (extract : String → String → List String) (hwc : 0 < cfg.maxWorkers) :
    ∀ (fuel : Nat) (st : CrawlState), CrawlInv st →
      CrawlInv (crawlLoop cfg (honestExec net extract) fuel st) := by
  intro fuel
  induction fuel with
  | zero => intro st hinv; exact hinv
  | succ fuel ih =>
    intro st hinv
    rw [crawlLoop]
    by_cases he : st.frontier.isEmpty
    · rw [if_pos he]
      exact hinv
    · rw [if_neg he]
      cases hr : runRound cfg (honestExec net extract) st with
      | none => exact hinv
      | some st2 =>
        exact ih st2 (runRound_honest_preserves_inv cfg net extract st st2 hwc hinv hr)

theorem runRound_honest_results_mem (cfg : CrawlOptions) (net : String → Option String)
    (extract : String → String → List String) (st st2 : CrawlState)
    (h : runRound cfg (honestExec net extract) st = some st2) (r : PageResult)
    (hr : r ∈ st2.results) :
    r ∈ st.results ∨
      ∃ e t, t ∈ distributeUrls st.frontier cfg.rootUrl cfg.maxDepth cfg.timeout cfg.maxWorkers ∧
        e ∈ t.urls ∧ e.depth ≤ t.maxDepth ∧ r.url = e.url ∧ r.depth = e.depth ∧
        ∃ html, fetchPage net e.url = some html := by
  rcases (runRound_honest_eq cfg net extract st st2).mp h with ⟨-, hst2⟩
  rw [hst2] at hr
  simp only at hr
  rw [processWorkerResults_results, honest_filter_isNone, List.map_map] at hr
  rcases List.mem_append.mp hr with hold | hnew
  · exact Or.inl hold
  · rcases List.mem_flatten.mp hnew with ⟨l, hl, hrl⟩
    rcases List.mem_map.mp hl with ⟨t, ht, htl⟩
    rw [← htl] at hrl
    rcases mem_processTask_results net extract t r hrl with ⟨e, he, hd, html, hf, hre⟩
    refine Or.inr ⟨e, t, ht, he, hd, ?_, ?_, html, hf⟩
    · rw [hre]
    · rw [hre]

theorem runRound_honest_frontier_mem (cfg : CrawlOptions) (net : String → Option String)
    (extract : String → String → List String) (st st2 : CrawlState)
    (h : runRound cfg (honestExec net extract) st = some st2) (u : Entry)
    (hu : u ∈ st2.frontier) :
    ∃ e, e ∈ st.frontier ∧ e.depth < cfg.maxDepth ∧ u.depth = e.depth + 1 ∧
      ∃ html, fetchPage net e.url = some html := by
  rcases (runRound_honest_eq cfg net extract st st2).mp h with ⟨-, hst2⟩
  rw [hst2] at hu
  simp only at hu
  rcases mem_processWorkerResults_newUrls cfg.rootUrl _ _ _ u hu with ⟨⟨wr, hwr, -, hunew⟩, -, -⟩
  rcases List.mem_map.mp hwr with ⟨t, ht, htwr⟩
  rw [← htwr] at hunew
  rcases mem_processTask_newUrls net extract t u hunew with ⟨e, he, hd, hdepth, -, html, hf⟩
  have hmem := mem_distributeUrls st.frontier cfg.rootUrl cfg.maxDepth cfg.timeout
    cfg.maxWorkers t ht
  refine ⟨e, hmem.1.subset he, ?_, hdepth, html, hf⟩
  rw [← hmem.2.1]
  exact hd

theorem runRound_all_fetch_none (cfg : CrawlOptions) (net : String → Option String)
    (extract : String → String → List String) (st st2 : CrawlState)
    (h : runRound cfg (honestExec net extract) st = some st2)
    (hall : ∀ e ∈ st.frontier, fetchPage net e.url = none) :
    st2.results = st.results ∧ st2.frontier = [] := by
  constructor
  · rcases (runRound_honest_eq cfg net extract st st2).mp h with ⟨-, hst2⟩
    rw [hst2]
    simp only
    rw [processWorkerResults_results, honest_filter_isNone, List.map_map]
    simp only [Function.comp_def]
    have hflat : ((distributeUrls st.frontier cfg.rootUrl cfg.maxDepth cfg.timeout
        cfg.maxWorkers).map
          (fun t => (processTask net extract t).results)).flatten = [] := by
      rw [List.eq_nil_iff_forall_not_mem]
      intro r hr
      rcases List.mem_flatten.mp hr with ⟨l, hl, hrl⟩
      rcases List.mem_map.mp hl with ⟨t, ht, htl⟩
      rw [← htl] at hrl
      rcases mem_processTask_results net extract t r hrl with ⟨e, he, -, html, hf, -⟩
      have hsub := (mem_distributeUrls st.frontier cfg.rootUrl cfg.maxDepth cfg.timeout
        cfg.maxWorkers t ht).1.subset he
      rw [hall e hsub] at hf
      exact Option.noConfusion hf
    rw [hflat, List.append_nil]
  · rw [List.eq_nil_iff_forall_not_mem]
    intro u hu
    rcases runRound_honest_frontier_mem cfg net extract st st2 h u hu with
      ⟨e, he, -, -, html, hf⟩
    rw [hall e he] at hf
    exact Option.noConfusion hf

theorem runRound_crash (cfg : CrawlOptions) (exec : WorkerTask → ExecOutcome)
    (st : CrawlState) (t : WorkerTask)
    (hmem : t ∈ distributeUrls st.frontier cfg.rootUrl cfg.maxDepth cfg.timeout cfg.maxWorkers)
    (hcrash : exec t = ExecOutcome.crash) :
    runRound cfg exec st = none := by
  unfold runRound
  by_cases he : (distributeUrls st.frontier cfg.rootUrl cfg.maxDepth cfg.timeout
      cfg.maxWorkers).isEmpty
  · rw [if_pos he]
  · rw [if_neg he, executeWorkerTasks_crash exec _ t hmem hcrash]

theorem crawlLoop_break (cfg : CrawlOptions) (exec : WorkerTask → ExecOutcome)
    (fuel : Nat) (st : CrawlState) (h : runRound cfg exec st = none) :
    crawlLoop cfg exec (fuel + 1) st = st := by
  rw [crawlLoop]
  by_cases he : st.frontier.isEmpty
  · rw [if_pos he]
  · rw [if_neg he, h]

theorem crawlLoop_results_depth (cfg : CrawlOptions) (net : String → Option String)
    (extract : String → String → List String) :
    ∀ (fuel : Nat) (st : CrawlState), (∀ r ∈ st.results, r.depth ≤ cfg.maxDepth) →
      ∀ r ∈ (crawlLoop cfg (honestExec net extract) fuel st).results,
        r.depth ≤ cfg.maxDepth := by
  intro fuel
  induction fuel with
  | zero => intro st hall r hr; exact hall r hr
  | succ fuel ih =>
    intro st hall
    rw [crawlLoop]
    by_cases he : st.frontier.isEmpty
    · rw [if_pos he]
      exact hall
    · rw [if_neg he]
      cases hr : runRound cfg (honestExec net extract) st with
      | none => exact hall
      | some st2 =>
        refine ih st2 ?_
        intro r hr2
        rcases runRound_honest_results_mem cfg net extract st st2 hr r hr2 with
          hold | ⟨e, t, ht, -, hd, -, hrd, -⟩
        · exact hall r hold
        · rw [hrd]
          rw [(mem_distributeUrls st.frontier cfg.rootUrl cfg.maxDepth cfg.timeout
            cfg.maxWorkers t ht).2.1] at hd
          exact hd

theorem crawlLoop_honest_stable (cfg : CrawlOptions) (net : String → Option String)
    (extract : String → String → List String) :
    ∀ (n k : Nat) (st : CrawlState),
      (∀ e ∈ st.frontier, e.depth = k ∧ k ≤ cfg.maxDepth) →
      cfg.maxDepth + 1 ≤ k + n →
      ∀ extra, crawlLoop cfg (honestExec net extract) (n + extra) st =
        crawlLoop cfg (honestExec net extract) n st := by
  intro n
  induction n with
  | zero =>
    intro k st hinv hbound extra
    have hf : st.frontier = [] := by
      rw [List.eq_nil_iff_forall_not_mem]
      intro e he
      have := hinv e he
      omega
    rw [Nat.zero_add, crawlLoop_frontier_nil cfg _ extra st hf]
    rfl
  | succ n ih =>
    intro k st hinv hbound extra
    by_cases he : st.frontier.isEmpty
    · have hf := List.isEmpty_iff.mp he
      rw [crawlLoop_frontier_nil cfg _ _ st hf, crawlLoop_frontier_nil cfg _ _ st hf]
    · rw [show n + 1 + extra = (n + extra) + 1 from by omega]
      rw [crawlLoop, crawlLoop]
      rw [if_neg he, if_neg he]
      cases hr : runRound cfg (honestExec net extract) st with
      | none => rfl
      | some st2 =>
        refine ih (k + 1) st2 ?_ (by omega) extra
        intro u hu
        rcases runRound_honest_frontier_mem cfg net extract st st2 hr u hu with
          ⟨e, he2, hlt, hdep, -⟩
        have hk := hinv e he2
        constructor
        · omega
        · rw [hk.1] at hlt
          omega

theorem crawl_root_fetch_none (cfg : CrawlOptions) (net : String → Option String)
    (extract : String → String → List String) (fuel : Nat)
    (hf : fetchPage net cfg.rootUrl = none) :
    crawl cfg net extract fuel = [] := by
  cases fuel with
  | zero => rfl
  | succ fuel =>
    unfold crawl crawlWithExec
    rw [crawlLoop]
    have hne : ¬ (initState cfg).frontier.isEmpty := by
      simp [initState]
    rw [if_neg hne]
    cases hr : runRound cfg (honestExec net extract) (initState cfg) with
    | none => rfl
    | some st2 =>
      have hz := runRound_all_fetch_none cfg net extract (initState cfg) st2 hr ?_
      · show (crawlLoop cfg (honestExec net extract) fuel st2).results = []
        rw [crawlLoop_frontier_nil cfg _ fuel st2 hz.2, hz.1]
        rfl
      · intro e he
        simp only [initState, List.mem_singleton] at he
        rw [he]
        exact hf

/-- C4: for a positive worker count, distribution yields at most
`workerCount` tasks; the concatenation of the slices in task order is
exactly the input; task `j` carries the contiguous slice starting at
`j * ceil(len/workerCount)` of length `ceil(len/workerCount)`; every task
except possibly the last has exactly `ceil(len/workerCount)` entries; an
empty input yields zero tasks; and 10 entries over 4 workers split into
slices of sizes 3, 3, 3, 1 covering all entries exactly once. -/
theorem c4_distribution (urls : List Entry) (r : String) (md tmo wc : Nat) (hwc : 0 < wc) :
    ((distributeUrls urls r md tmo wc).length ≤ wc) ∧
    (((distributeUrls urls r md tmo wc).map (fun t => t.urls)).flatten = urls) ∧
    (∀ j, j < (distributeUrls urls r md tmo wc).length →
      (distributeUrls urls r md tmo wc)[j]? =
        some (mkWorkerTask urls r md tmo (jsCeilDiv urls.length wc) j)) ∧
    (∀ j, j + 1 < (distributeUrls urls r md tmo wc).length →
      ∃ t, (distributeUrls urls r md tmo wc)[j]? = some t ∧
        t.urls.length = jsCeilDiv urls.length wc) ∧
    (distributeUrls [] r md tmo wc = []) ∧
    ((distributeUrls tenEntries "http://t" 1 9 4).map (fun t => t.urls.length) =
      [3, 3, 3, 1]) ∧
    (((distributeUrls tenEntries "http://t" 1 9 4).map (fun t => t.urls)).flatten =
      tenEntries) := by
  have hupw : urls ≠ [] → 0 < jsCeilDiv urls.length wc := fun hne =>
    jsCeilDiv_pos _ wc hwc (List.length_pos.mpr hne)
  refine ⟨?_, distributeUrls_flatten urls r md tmo wc hwc, ?_, ?_,
    distributeUrls_nil r md tmo wc, by decide, by decide⟩
  · exact distributeLoop_length_le urls r md tmo _ wc 0
  · intro j hj
    have hne : urls ≠ [] := by
      intro h0
      rw [h0, distributeUrls_nil] at hj
      simp at hj
    have h0 := distributeLoop_getElem urls r md tmo (jsCeilDiv urls.length wc)
      (hupw hne) wc 0 j hj
    rw [Nat.zero_add] at h0
    exact h0
  · intro j hj
    have hj1 : j < (distributeUrls urls r md tmo wc).length := by omega
    have hne : urls ≠ [] := by
      intro h0
      rw [h0, distributeUrls_nil] at hj1
      simp at hj1
    have hpos := hupw hne
    have h0 := distributeLoop_getElem urls r md tmo (jsCeilDiv urls.length wc)
      hpos wc 0 j hj1
    rw [Nat.zero_add] at h0
    refine ⟨mkWorkerTask urls r md tmo (jsCeilDiv urls.length wc) j, h0, ?_⟩
    have hvalid := distributeLoop_get_valid urls r md tmo (jsCeilDiv urls.length wc)
      hpos wc 0 (j + 1) hj
    have hlt : (0 + (j + 1)) * jsCeilDiv urls.length wc < urls.length := hvalid.1
    rw [Nat.zero_add] at hlt
    have hexp : (j + 1) * jsCeilDiv urls.length wc =
        j * jsCeilDiv urls.length wc + jsCeilDiv urls.length wc := by ring
    rw [hexp] at hlt
    unfold mkWorkerTask
    simp only [List.length_take, List.length_drop]
    omega

/-- C4 witness: the partition property instantiated on the concrete
10-entry frontier with 4 workers. -/
theorem c4_distribution_witness :
    0 < 4 ∧ ((distributeUrls tenEntries "http://t" 1 9 4).map (fun t => t.urls)).flatten =
      tenEntries :=
  ⟨by decide, (c4_distribution tenEntries "http://t" 1 9 4 (by decide)).2.1⟩

/-- C6: the ratio of an empty link list is 0; in general the ratio is the
number of links same-domain with the page URL divided by the number of
links; the ratio always lies in `[0, 1]`; it is 1 when every link of a
non-empty list is same-domain with the page; and every recorded
`PageResult` carries the ratio computed against its own page URL (the
root URL enters only as the resolution base). -/
theorem c6_ratio_contract :
    (∀ (pageUrl : String) (fn : String → String → Bool),
      calculateRatio [] pageUrl fn = 0) ∧
    (∀ (links : List String) (pageUrl root : String),
      calculateRatio links pageUrl (fun link p => isSameDomain link p root) =
        ((links.filter (fun link => isSameDomain link pageUrl root)).length : ℚ) /
          (links.length : ℚ)) ∧
    (∀ (links : List String) (pageUrl : String) (fn : String → String → Bool),
      0 ≤ calculateRatio links pageUrl fn ∧ calculateRatio links pageUrl fn ≤ 1) ∧
    (∀ (links : List String) (pageUrl root : String), links ≠ [] →
      (∀ l ∈ links, isSameDomain l pageUrl root = true) →
      calculateRatio links pageUrl (fun link p => isSameDomain link p root) = 1) ∧
    (∀ (net : String → Option String) (extract : String → String → List String)
      (t : WorkerTask) (r : PageResult), r ∈ (processTask net extract t).results →
      ∃ e html, e ∈ t.urls ∧ fetchPage net e.url = some html ∧
        r = ⟨e.url, e.depth,
          calculateRatio (extract html e.url) e.url
            (fun link pageUrl => isSameDomain link pageUrl t.rootUrl)⟩) := by
  refine ⟨fun pageUrl fn => rfl, ?_, ?_, ?_, ?_⟩
  · intro links pageUrl root
    unfold calculateRatio
    cases links with
    | nil => simp
    | cons a ls => simp
  · intro links pageUrl fn
    unfold calculateRatio
    by_cases h : links.length = 0
    · rw [if_pos h]
      norm_num
    · rw [if_neg h]
      constructor
      · apply div_nonneg
        · exact Nat.cast_nonneg _
        · exact Nat.cast_nonneg _
      · apply div_le_one_of_le₀
        · exact_mod_cast List.length_filter_le _ links
        · exact Nat.cast_nonneg _
  · intro links pageUrl root hne hall
    unfold calculateRatio
    have hlen : links.length ≠ 0 := by
      cases links with
      | nil => exact absurd rfl hne
      | cons a ls => simp
    rw [if_neg hlen]
    rw [List.filter_eq_self.mpr hall]
    apply div_self
    exact_mod_cast hlen
  · intro net extract t r hr
    rcases mem_processTask_results net extract t r hr with ⟨e, he, -, html, hf, hre⟩
    exact ⟨e, html, he, hf, hre⟩

/-- C6 witness: a single same-domain link yields ratio 1. -/
theorem c6_ratio_contract_witness :
    (["http://a.com/x"] ≠ ([] : List String)) ∧
    calculateRatio ["http://a.com/x"] "http://a.com"
      (fun link p => isSameDomain link p "http://a.com") = 1 :=
  ⟨by decide, c6_ratio_contract.2.2.2.1 ["http://a.com/x"] "http://a.com" "http://a.com"
    (by decide) (by decide)⟩

/-- C8: the domain matcher fails closed — whenever either URL cannot be
resolved against the base URL, `isSameDomain` returns `false` (in the
source, the `URL` constructor throws and the `catch` returns `false`;
in this embedding the matcher is total, so it never throws). -/
theorem c8_fails_closed (u1 u2 base : String)
    (h : resolveUrlAgainst u1 base = none ∨ resolveUrlAgainst u2 base = none) :
    isSameDomain u1 u2 base = false := by
  unfold isSameDomain
  rcases h with h | h
  · rw [h]
  · rw [h]
    cases h1 : resolveUrlAgainst u1 base <;> rfl

/-- C8 witness: `http://` has an empty host, so it does not resolve, and
the matcher answers `false`. -/
theorem c8_fails_closed_witness :
    (resolveUrlAgainst "http://" "http://a.com" = none ∨
      resolveUrlAgainst "http://a.com" "http://a.com" = none) ∧
    isSameDomain "http://" "http://a.com" "http://a.com" = false :=
  ⟨Or.inl (by decide),
    c8_fails_closed "http://" "http://a.com" "http://a.com" (Or.inl (by decide))⟩

/-- C9: the domain matcher is symmetric in its two URL arguments, and it is
reflexive on every URL that resolves against the base (the embedding's
reading of well-formed). -/
theorem c9_symmetric_reflexive :
    (∀ u1 u2 base : String, isSameDomain u1 u2 base = isSameDomain u2 u1 base) ∧
    (∀ u base : String, (resolveUrlAgainst u base).isSome →
      isSameDomain u u base = true) := by
  constructor
  · intro u1 u2 base
    unfold isSameDomain
    cases h1 : resolveUrlAgainst u1 base <;> cases h2 : resolveUrlAgainst u2 base
    · rfl
    · rfl
    · rfl
    · simp only [decide_eq_decide]
      exact eq_comm
  · intro u base h
    rcases Option.isSome_iff_exists.mp h with ⟨d, hd⟩
    unfold isSameDomain
    rw [hd]
    simp

/-- C9 witness: reflexivity applied to the resolvable URL `a://b`. -/
theorem c9_symmetric_reflexive_witness :
    (resolveUrlAgainst "a://b" "a://b").isSome ∧
    isSameDomain "a://b" "a://b" "a://b" = true :=
  ⟨by decide, c9_symmetric_reflexive.2 "a://b" "a://b" (by decide)⟩

/-- C1: across a whole crawl with healthy workers, no URL is ever recorded
twice in the result accumulator; the root URL is placed in the visited set
before round 0; and at the merge point an entry is admitted to the next
frontier only if its URL is not yet visited, the admitted URL being in the
updated visited set immediately. -/
theorem c1_no_duplicate_visitation (cfg : CrawlOptions) (net : String → Option String)
    (extract : String → String → List String) (fuel : Nat) (hwc : 0 < cfg.maxWorkers) :
    ((crawl cfg net extract fuel).map (fun r => r.url)).Nodup ∧
    (initState cfg).visited = [cfg.rootUrl] ∧
    (∀ (vis : List String) (res : List PageResult) (wrs : List WorkerResult) (u : Entry),
      u ∈ (processWorkerResults cfg.rootUrl vis res wrs).2.2 →
        u.url ∉ vis ∧ u.url ∈ (processWorkerResults cfg.rootUrl vis res wrs).1) := by
  refine ⟨?_, rfl, ?_⟩
  · exact (crawlLoop_preserves_inv cfg net extract hwc fuel (initState cfg)
      (initState_inv cfg)).1
  · intro vis res wrs u hu
    refine ⟨(mem_processWorkerResults_newUrls cfg.rootUrl wrs vis res u hu).2.1, ?_⟩
    rw [processWorkerResults_mem_visited]
    right
    exact List.mem_map.mpr ⟨u, hu, rfl⟩

/-- C1 witness: the duplicate-freedom conclusion on a concrete crawl. -/
theorem c1_no_duplicate_visitation_witness :
    0 < cfgTwo.maxWorkers ∧
    ((crawl cfgTwo siteNet siteExtract 4).map (fun r => r.url)).Nodup :=
  ⟨by decide, (c1_no_duplicate_visitation cfgTwo siteNet siteExtract 4 (by decide)).1⟩

/-- C2 counterexample: on the three-page site with two workers, the round-1
worker holding page `b` crashes while the round-1 worker holding page `c`
completes normally with a page result; the claim says the surviving
worker's result is kept, but the crawl returns only the round-0 result —
`Promise.all` rejects, the `catch` breaks the loop, and the whole round is
discarded. -/
theorem c2_counterexample :
    distributeUrls stRound1.frontier cfgTwo.rootUrl cfgTwo.maxDepth cfgTwo.timeout
      cfgTwo.maxWorkers = [taskB, taskC] ∧
    crashExec taskB = ExecOutcome.crash ∧
    crashExec taskC = ExecOutcome.msg (processTask siteNet siteExtract taskC) ∧
    ((processTask siteNet siteExtract taskC).results).map (fun r => r.url) =
      ["http://a.com/c"] ∧
    ((crawlWithExec cfgTwo crashExec 5).map (fun r => r.url)) = ["http://a.com"] :=
  ⟨by decide, by decide, by decide, by decide, by decide⟩

/-- C2 amended: a `TaskOutcome` that carries an error field is logged and
discarded at the merge without aborting the round — the accumulator gains
exactly the results of the error-free outcomes, in order; but when an
executor itself crashes, the `Promise.all` barrier rejects and the
coordinator breaks out of the crawl loop: the whole round (including the
surviving tasks' contributions) is discarded and the crawl returns the
results accumulated in earlier rounds. -/
theorem c2_failure_isolation :
    (∀ (root : String) (vis : List String) (res : List PageResult)
      (wrs : List WorkerResult),
      (processWorkerResults root vis res wrs).2.1 =
        res ++ (((wrs.filter (fun w => w.error.isNone)).map (fun w => w.results)).flatten)) ∧
    (∀ (cfg : CrawlOptions) (exec : WorkerTask → ExecOutcome) (st : CrawlState)
      (t : WorkerTask) (fuel : Nat),
      t ∈ distributeUrls st.frontier cfg.rootUrl cfg.maxDepth cfg.timeout cfg.maxWorkers →
      exec t = ExecOutcome.crash →
      crawlLoop cfg exec (fuel + 1) st = st) :=
  ⟨fun root vis res wrs => processWorkerResults_results root wrs vis res,
   fun cfg exec st t fuel hmem hcrash =>
     crawlLoop_break cfg exec fuel st (runRound_crash cfg exec st t hmem hcrash)⟩

/-- C2 witness: the crash clause applied to the concrete round-1 state. -/
theorem c2_failure_isolation_witness :
    taskB ∈ distributeUrls stRound1.frontier cfgTwo.rootUrl cfgTwo.maxDepth cfgTwo.timeout
      cfgTwo.maxWorkers ∧
    crawlLoop cfgTwo crashExec (0 + 1) stRound1 = stRound1 :=
  ⟨by decide,
    c2_failure_isolation.2 cfgTwo crashExec stRound1 taskB 0 (by decide) (by decide)⟩

/-- C3: no recorded page result ever exceeds `maxDepth`; every link a
worker discovers has depth one more than some processed slice entry whose
depth is strictly below the task's `maxDepth`; and with `maxDepth = 0` one
round is as good as any number of rounds — the frontier after round 0 is
empty regardless of the links on the root page. -/
theorem c3_depth_monotone :
    (∀ (cfg : CrawlOptions) (net : String → Option String)
      (extract : String → String → List String) (fuel : Nat) (r : PageResult),
      r ∈ crawl cfg net extract fuel → r.depth ≤ cfg.maxDepth) ∧
    (∀ (net : String → Option String) (extract : String → String → List String)
      (t : WorkerTask) (u : Entry), u ∈ (processTask net extract t).newUrls →
      ∃ e, e ∈ t.urls ∧ e.depth < t.maxDepth ∧ u.depth = e.depth + 1) ∧
    (∀ (cfg : CrawlOptions) (net : String → Option String)
      (extract : String → String → List String) (fuel : Nat), cfg.maxDepth = 0 →
      crawl cfg net extract (fuel + 1) = crawl cfg net extract 1) := by
  refine ⟨?_, ?_, ?_⟩
  · intro cfg net extract fuel r hr
    refine crawlLoop_results_depth cfg net extract fuel (initState cfg) ?_ r hr
    intro r0 h0
    simp [initState] at h0
  · intro net extract t u hu
    rcases mem_processTask_newUrls net extract t u hu with ⟨e, he, hd, hdep, -, -⟩
    exact ⟨e, he, hd, hdep⟩
  · intro cfg net extract fuel h0
    unfold crawl crawlWithExec
    rw [show fuel + 1 = 1 + fuel from by omega]
    rw [crawlLoop_honest_stable cfg net extract 1 0 (initState cfg) ?_ (by omega) fuel]
    intro e he
    simp only [initState, List.mem_singleton] at he
    rw [he]
    exact ⟨rfl, by omega⟩

/-- C3 witness: the `maxDepth = 0` clause on a concrete configuration. -/
theorem c3_depth_monotone_witness :
    cfgZero.maxDepth = 0 ∧
    crawl cfgZero siteNet siteExtract (2 + 1) = crawl cfgZero siteNet siteExtract 1 :=
  ⟨rfl, c3_depth_monotone.2.2 cfgZero siteNet siteExtract 2 rfl⟩

/-- C5: the crawl loop is insensitive to any fuel beyond `maxDepth + 1`
rounds (each round lifts the frontier depth by one, so after `maxDepth + 1`
rounds the frontier is exhausted); a successful round maps a frontier of
uniform depth `k` to one of uniform depth `k + 1`; and the loop stops at an
empty frontier and when distribution yields zero tasks. -/
theorem c5_terminates_in_maxdepth_rounds :
    (∀ (cfg : CrawlOptions) (net : String → Option String)
      (extract : String → String → List String) (extra : Nat),
      crawl cfg net extract (cfg.maxDepth + 1 + extra) =
        crawl cfg net extract (cfg.maxDepth + 1)) ∧
    (∀ (cfg : CrawlOptions) (net : String → Option String)
      (extract : String → String → List String) (st st2 : CrawlState) (k : Nat),
      (∀ e ∈ st.frontier, e.depth = k) →
      runRound cfg (honestExec net extract) st = some st2 →
      ∀ u ∈ st2.frontier, u.depth = k + 1) ∧
    (∀ (cfg : CrawlOptions) (exec : WorkerTask → ExecOutcome) (fuel : Nat)
      (st : CrawlState), st.frontier = [] → crawlLoop cfg exec fuel st = st) ∧
    (∀ (cfg : CrawlOptions) (exec : WorkerTask → ExecOutcome) (fuel : Nat)
      (st : CrawlState),
      distributeUrls st.frontier cfg.rootUrl cfg.maxDepth cfg.timeout cfg.maxWorkers = [] →
      crawlLoop cfg exec (fuel + 1) st = st) := by
  refine ⟨?_, ?_, ?_, ?_⟩
  · intro cfg net extract extra
    unfold crawl crawlWithExec
    rw [show cfg.maxDepth + 1 + extra = (cfg.maxDepth + 1) + extra from rfl]
    rw [crawlLoop_honest_stable cfg net extract (cfg.maxDepth + 1) 0 (initState cfg)
      ?_ (by omega) extra]
    intro e he
    simp only [initState, List.mem_singleton] at he
    rw [he]
    exact ⟨rfl, by omega⟩
  · intro cfg net extract st st2 k hk hr u hu
    rcases runRound_honest_frontier_mem cfg net extract st st2 hr u hu with
      ⟨e, he, -, hdep, -⟩
    rw [hdep, hk e he]
  · intro cfg exec fuel st h
    exact crawlLoop_frontier_nil cfg exec fuel st h
  · intro cfg exec fuel st h
    refine crawlLoop_break cfg exec fuel st ?_
    unfold runRound
    rw [h]
    rfl

/-- C5 witness: the empty-frontier exit applied to a drained state. -/
theorem c5_terminates_in_maxdepth_rounds_witness :
    stDone.frontier = [] ∧ crawlLoop cfgTwo crashExec 4 stDone = stDone :=
  ⟨rfl, c5_terminates_in_maxdepth_rounds.2.2.1 cfgTwo crashExec 4 stDone rfl⟩

/-- C7: a per-page fetch failure silently skips exactly that entry — a task
whose single entry fails produces no result and no links, a failed URL
never appears among a task's results, while every accepted entry whose
fetch succeeds still contributes its page result (the task is not
aborted); and when the root page's fetch fails, the whole crawl returns an
empty accumulator without raising. -/
theorem c7_page_failure_skips_entry :
    (∀ (net : String → Option String) (extract : String → String → List String)
      (id root u : String) (d md tm : Nat), fetchPage net u = none →
      processTask net extract ⟨id, [⟨u, d⟩], root, md, tm⟩ = ⟨id, [], [], none⟩) ∧
    (∀ (net : String → Option String) (extract : String → String → List String)
      (t : WorkerTask) (u : String), fetchPage net u = none →
      u ∉ ((processTask net extract t).results).map (fun r => r.url)) ∧
    (∀ (net : String → Option String) (extract : String → String → List String)
      (t : WorkerTask) (e : Entry) (html : String),
      e ∈ acceptEntries t.maxDepth [] t.urls → fetchPage net e.url = some html →
      e.url ∈ ((processTask net extract t).results).map (fun r => r.url)) ∧
    (∀ (cfg : CrawlOptions) (net : String → Option String)
      (extract : String → String → List String) (fuel : Nat),
      fetchPage net cfg.rootUrl = none → crawl cfg net extract fuel = []) := by
  refine ⟨?_, ?_, ?_, ?_⟩
  · intro net extract id root u d md tm hf
    exact processTask_singleton_fetch_none net extract id root u d md tm hf
  · intro net extract t u hf
    exact processTask_fetch_none_not_mem net extract t u hf
  · intro net extract t e html he hf
    exact processAccepted_fetch_some_mem net extract t.rootUrl t.maxDepth _ _ e html he hf
  · intro cfg net extract fuel hf
    exact crawl_root_fetch_none cfg net extract fuel hf

/-- C7 witness: a failing root fetch yields an empty accumulator. -/
theorem c7_page_failure_skips_entry_witness :
    fetchPage failNet cfgTwo.rootUrl = none ∧
    crawl cfgTwo failNet emptyExtract 4 = [] :=
  ⟨by decide, c7_page_failure_skips_entry.2.2.2 cfgTwo failNet emptyExtract 4 (by decide)⟩

/-- C10 counterexample: `http://a.com/p.123` has pathname extension `123`,
which is outside the crawlable list, yet `fetchPage` does not short-circuit:
the digits-only exception in `isLikelyFileUrl` treats it as an HTML page and
the request reaches the network. -/
theorem c10_counterexample :
    parseAbs "http://a.com/p.123" = some ⟨"http:", "a.com", "/p.123"⟩ ∧
    extensionOf "/p.123" = some "123" ∧
    "123" ∉ CRAWLABLE_EXTENSIONS ∧
    isLikelyFileUrl "http://a.com/p.123" = false ∧
    fetchPage (fun _ => some "page") "http://a.com/p.123" = some "page" :=
  ⟨by decide, by decide, by decide, by decide, by decide⟩

/-- C10 amended: a URL whose pathname ends in an extension that is outside
the crawlable list and does not consist solely of digits is rejected by
`fetchPage` before any network access — for every network oracle the result
is `none` — so such a URL never contributes a page result or discovered
links. -/
theorem c10_file_urls_not_fetched (url : String) (u : Url) (ext : String)
    (hp : parseAbs url = some u) (hext : extensionOf u.pathname = some ext)
    (hnc : ext ∉ CRAWLABLE_EXTENSIONS)
    (hnd : ¬ ext.toList.all (fun c => c.isDigit) = true) :
    (∀ net : String → Option String, fetchPage net url = none) ∧
    (∀ (net : String → Option String) (extract : String → String → List String)
      (t : WorkerTask), url ∉ ((processTask net extract t).results).map (fun r => r.url)) ∧
    (∀ (net : String → Option String) (extract : String → String → List String)
      (id root : String) (d md tm : Nat),
      processTask net extract ⟨id, [⟨url, d⟩], root, md, tm⟩ = ⟨id, [], [], none⟩) := by
  have hfile : isLikelyFileUrl url = true := by
    simp only [isLikelyFileUrl, hp, hext]
    rw [if_neg hnd, decide_eq_false hnc]
    rfl
  have hfetch : ∀ net : String → Option String, fetchPage net url = none := by
    intro net
    unfold fetchPage
    rw [hfile]
    rfl
  refine ⟨hfetch, ?_, ?_⟩
  · intro net extract t
    exact processTask_fetch_none_not_mem net extract t url (hfetch net)
  · intro net extract id root d md tm
    exact processTask_singleton_fetch_none net extract id root url d md tm (hfetch net)

/-- C10 witness: the amended rule applied to `http://a.com/x.pdf`. -/
theorem c10_file_urls_not_fetched_witness :
    parseAbs "http://a.com/x.pdf" = some ⟨"http:", "a.com", "/x.pdf"⟩ ∧
    fetchPage failNet "http://a.com/x.pdf" = none :=
  ⟨by decide,
    (c10_file_urls_not_fetched "http://a.com/x.pdf" ⟨"http:", "a.com", "/x.pdf"⟩ "pdf"
      (by decide) (by decide) (by decide) (by decide)).1 failNet⟩

end WebCrawler
